import Mathlib

/-!
Verification development for `utils/parse_datamodel_sheet.py`, the
documentation-driven schema compiler of this repository.  The Python
source is shallowly embedded: each Python helper becomes an executable
Lean definition over `List Char` / `String`, fallible code (Python
exceptions) becomes `Option` / `Except`, and the `main` scanning loop
becomes an explicit fuel-indexed recursion.  Definitions come first,
theorems follow at the end of the file.
-/

namespace PyStr

/-- Backtick character (code point 96), used by the source in
`split("``")`, `strip("`")` and `replace("`", "")`. -/
def btChar : Char := Char.ofNat 96

/-- Characters of Python `str.strip()` stripped from the left:
drop leading whitespace. -/
def chTrimLeft (l : List Char) : List Char := l.dropWhile (fun c => c.isWhitespace)

/-- Python `str.strip()` over a character list: drop whitespace from
both ends. -/
def chTrim (l : List Char) : List Char :=
  ((chTrimLeft l).reverse.dropWhile (fun c => c.isWhitespace)).reverse

/-- Python `str.strip(c)` for a single strip character: drop that
character from both ends. -/
def chStripChar (c : Char) (l : List Char) : List Char :=
  (((l.dropWhile (fun x => x = c)).reverse.dropWhile (fun x => x = c))).reverse

/-- Python `str.split(sep)` for a one-character separator. -/
def chSplitOne (c : Char) : List Char → List (List Char)
  | [] => [[]]
  | x :: rest =>
    if x = c then [] :: chSplitOne c rest
    else
      match chSplitOne c rest with
      | [] => [[x]]
      | p :: ps => (x :: p) :: ps

/-- Python `str.split(sep)` for a two-character separator (the source
splits on a double backtick), scanning left to right without overlap. -/
def chSplit2 (c1 c2 : Char) : List Char → List (List Char)
  | [] => [[]]
  | [x] => [[x]]
  | x :: y :: rest =>
    if x = c1 ∧ y = c2 then [] :: chSplit2 c1 c2 rest
    else
      match chSplit2 c1 c2 (y :: rest) with
      | [] => [[x]]
      | p :: ps => (x :: p) :: ps

/-- Python `sep.join(pieces)` over character lists. -/
def chJoin (sep : List Char) : List (List Char) → List Char
  | [] => []
  | [p] => p
  | p :: ps => p ++ sep ++ chJoin sep ps

/-- Python `str.replace("{n}", "")`: remove every non-overlapping
occurrence of the three-character pattern, scanning left to right. -/
def chRemoveBrN : List Char → List Char
  | [] => []
  | [c1] => [c1]
  | [c1, c2] => [c1, c2]
  | c1 :: c2 :: c3 :: rest =>
    if c1 = '{' ∧ c2 = 'n' ∧ c3 = '}' then chRemoveBrN rest
    else c1 :: chRemoveBrN (c2 :: c3 :: rest)

/-- Python `str.title()` restricted to ASCII letters: a letter that
follows a non-letter is uppercased, any other letter is lowercased.
The boolean argument records whether the previous character was a
letter. -/
def chTitle : Bool → List Char → List Char
  | _, [] => []
  | prev, c :: rest =>
    (if c.isAlpha then (if prev then c.toLower else c.toUpper) else c) :: chTitle c.isAlpha rest

/-- Python `str.startswith(pre)`. -/
def pyStartsWith (s pre : String) : Bool := pre.data.isPrefixOf s.data

/-- Python `str.endswith(suf)`. -/
def pyEndsWith (s suf : String) : Bool := suf.data.isSuffixOf s.data

/-- Python list indexing `l[k]` with negative-index wraparound;
`none` models an `IndexError`. -/
def pyIdx {α : Type} (l : List α) (k : Int) : Option α :=
  if k < 0 then
    if (-k).toNat ≤ l.length then l.get? (l.length - (-k).toNat) else none
  else l.get? k.toNat

/-- Python `"-".join(line.split("-")[1:]).strip()`, the idiom the member
parser uses to take everything after the first dash of a table line. -/
def afterDash (s : String) : String :=
  ⟨chTrim (chJoin ['-'] ((chSplitOne '-' s.data).drop 1))⟩

/-- Python `str.strip()` on a `String`. -/
def pyTrim (s : String) : String := ⟨chTrim s.data⟩

end PyStr

open PyStr

/-- The fixed synonym table of `parse_type` (`type_converter` in the
source), as an association list in source order. -/
def typeConverter : List (String × String) :=
  [("String", "str"), ("string", "str"), ("url", "str"), ("URL", "str"),
   ("Object", "dict"), ("object", "dict"),
   ("boolean", "bool"), ("Boolean", "bool"), ("bool", "bool"), ("Bool", "bool"),
   ("int", "int"), ("int or null", "int"), ("Integer", "int"), ("integer", "int"),
   ("Number", "float"), ("Number (Float)", "float"), ("Float", "float"), ("float", "float"),
   ("list", "list"), ("List", "list"),
   ("Unix Timestamp", "int"), ("Unix timestamp", "int"),
   ("string or object", "dict"), ("Printer state flags", "dict")]

/-- Embedding of `parse_type` (source lines 26–73): normalize a raw
type token to a Python type string, or fail (`raise Exception`) with a
diagnostic embedding the raw token. -/
def parse_type (t : String) : Except String String :=
  if pyStartsWith t "List of" || pyStartsWith t "Array of" then .ok "list"
  else if pyStartsWith t "Map of" || pyEndsWith t "or ``object" then .ok "dict"
  else if pyStartsWith t "String, " then .ok "str"
  else
    match typeConverter.lookup t with
    | some v => .ok v
    | none =>
      if pyStartsWith t ":ref:" then .ok t
      else .error ("unsure how to parse type: '" ++ t ++ "'")

/-- The recognizer rule set of the type normalizer as the specification
states it: a token is recognized when it matches the synonym table, one
of the `List of` / `Array of` / `Map of` / trailing generic-object /
`String, ` shapes, or carries the `:ref:` reference marker. -/
def recognizedType (t : String) : Bool :=
  (typeConverter.lookup t).isSome
    || pyStartsWith t "List of" || pyStartsWith t "Array of"
    || pyStartsWith t "Map of" || pyEndsWith t "or ``object"
    || pyStartsWith t "String, "
    || pyStartsWith t ":ref:"

/-- MemberSchema: one parsed member of a class.  `type` is `none` only
for the keyword-capture rewrite (Python stores `None` there);
`description` is `none` only for synthesized composite members. -/
structure Member where
  name : String
  type : Option String
  description : Option String
  optional : Bool
deriving Repr, DecidableEq

/-- Continuation-line count of the member parser (source lines 90–96):
the number of leading lines that neither are blank after stripping nor
start with `*` after stripping. -/
def contCount : List String → Nat
  | [] => 0
  | l :: rest =>
    if chTrim l.data ≠ [] ∧ ¬ (pyStartsWith (pyTrim l) "*" = true) then 1 + contCount rest
    else 0

/-- Embedding of `parse_member` (source lines 76–105): parse one member
block starting at line `i`.  `none` models the Python `IndexError` /
`Exception` raised on malformed blocks.  Note that the source builds a
local `description` accumulator from the continuation lines (line 95)
but the returned record recomputes the description from the single line
`i + 3` (line 101), so the continuation lines only advance the returned
index and are absent from the returned description. -/
def parse_member (lines : List String) (i : Nat) : Option (Member × Nat) :=
  match lines.get? i with
  | none => none
  | some l0 =>
    match (chSplit2 btChar btChar l0.data).get? 1 with
    | none => none
    | some namePiece =>
      match lines.get? (i + 2) with
      | none => none
      | some l2 =>
        match (parse_type ⟨chStripChar btChar (afterDash l2).data⟩).toOption with
        | none => none
        | some ty =>
          match lines.get? (i + 3) with
          | none => none
          | some l3 =>
            match lines.get? (i + 1) with
            | none => none
            | some l1 =>
              match (chSplitOne '-' l1.data).get? 1 with
              | none => none
              | some multPiece =>
                some (⟨⟨chTrim namePiece⟩, some ty, some (afterDash l3),
                  pyStartsWith ⟨chTrim multPiece⟩ "0.."⟩,
                  i + (4 + contCount (lines.drop (i + 4))))

/-- Demonstration member block: a name line, a multiplicity line, a type
line, a description line, one continuation line, then a blank line. -/
def demoMemberLines : List String :=
  ["``foo`` field", "   - 1", "   - string", "   - first words", "   continued here", ""]

/-- ClassSchema: one assembled class.  `file` is filled in by `main`
after parsing; `parent` is set for subsection classes. -/
structure ClassSchema where
  name : String
  members : List Member
  reference : Option String
  parent : Option String
  file : String
deriving Repr, DecidableEq

/-- Scan for the first line whose stripped text is the member-table
marker `- Description` (source lines 122–123); `none` models the
`IndexError` the Python `while` raises when no such line remains. -/
def markerScan : List String → Option Nat
  | [] => none
  | l :: rest =>
    if chTrim l.data = "- Description".data then some 0
    else (markerScan rest).map (· + 1)

/-- The dotted-folding loop of the assembler (source lines 131–144).
`names` is the Python `names` list (it grows while being iterated),
`k` the iteration index, and the fuel bounds the iteration count; the
caller supplies enough fuel for the loop to finish. -/
def foldStep : Nat → List Member → List String → Nat → Option (List Member)
  | 0, _, _, _ => none
  | fuel + 1, ms, names, k =>
    match names.get? k with
    | none => some ms
    | some nm =>
      if '.' ∈ nm.data then
        let p : String := ⟨(chSplitOne '.' nm.data).headI⟩
        if names.contains p then
          foldStep fuel (ms.filter (fun n => n.name ≠ nm)) names (k + 1)
        else
          let synth : Member :=
            ⟨⟨p.data.filter (fun c => c ≠ btChar)⟩, some "dict", none,
              ms.any (fun n => n.name = nm && n.optional)⟩
          foldStep fuel ((ms ++ [synth]).filter (fun n => n.name ≠ nm)) (names ++ [p]) (k + 1)
      else foldStep fuel ms names (k + 1)

/-- The name-shape rewrite of the assembler (source lines 146–153): a
name ending in `{n}` loses that suffix and becomes a list; a name
enclosed in angle brackets becomes the keyword-capture member
`**kwargs` of kind `none`, never optional.  `none` models the
`IndexError` Python raises indexing an empty name. -/
def rewriteShape (m : Member) : Option Member :=
  if pyEndsWith m.name "{n}" then
    some ⟨⟨chRemoveBrN m.name.data⟩, some "list", m.description, m.optional⟩
  else
    match m.name.data.head?, m.name.data.getLast? with
    | some c0, some cl =>
      if c0 = '<' ∧ cl = '>' then some ⟨"**kwargs", none, m.description, false⟩
      else some m
    | _, _ => none

/-- Stable insertion of `a` before the first element `b` with
`le a b`. -/
def insertStable {α : Type} (le : α → α → Bool) (a : α) : List α → List α
  | [] => [a]
  | b :: l => if le a b then a :: b :: l else b :: insertStable le a l

/-- Stable sort (insertion sort).  Python's `sorted` is specified to be
stable, and a stable sort is extensionally unique, so this models
`sorted(..., key=...)` faithfully for the Boolean keys the source
uses. -/
def stableSort {α : Type} (le : α → α → Bool) : List α → List α
  | [] => []
  | a :: l => insertStable le a (stableSort le l)

/-- Member comparison used by the assembler's final reordering
(source line 155): sort key is the `optional` flag, `false < true`. -/
def memberLe (a b : Member) : Bool := !a.optional || b.optional

/-- Failure-propagating traversal in the `Option` monad, modelling a
Python `for` loop whose body may raise. -/
def optMapM {α β : Type} (f : α → Option β) : List α → Option (List β)
  | [] => some []
  | a :: l =>
    match f a with
    | none => none
    | some b =>
      match optMapM f l with
      | none => none
      | some bs => some (b :: bs)

/-- The Schema Assembler applied to a raw member list: dotted folding
(source lines 131–144), name-shape rewrites (146–153), then the stable
required-before-optional sort (155). -/
def assembleMembers (raw : List Member) : Option (List Member) :=
  match foldStep (2 * (raw.map (fun m => m.name)).length + 1) raw
      (raw.map (fun m => m.name)) 0 with
  | none => none
  | some folded =>
    match optMapM rewriteShape folded with
    | none => none
    | some rewritten => some (stableSort memberLe rewritten)

/-- The member-table loop of `parse_class` (source lines 125–129):
repeatedly parse members until the returned index leaves the line list
or lands on a blank line.  Fuel-indexed; the caller supplies enough
fuel (each member consumes at least four lines). -/
def memberLoop (lines : List String) : Nat → Nat → List Member → Option (List Member × Nat)
  | 0, _, _ => none
  | fuel + 1, i, acc =>
    match parse_member lines i with
    | none => none
    | some (m, i') =>
      match lines.get? i' with
      | none => some (acc ++ [m], i')
      | some l =>
        if chTrim l.data = [] then some (acc ++ [m], i')
        else memberLoop lines fuel i' (acc ++ [m])

/-- The reference-anchor check of `parse_class` (source lines 120–121):
when `i - 3 > 0`, the line three above the underline publishes a
reference key if it starts with `.. _`; the outer `none` models the
`IndexError` of reading past the end. -/
def refAnchor (lines : List String) (i : Nat) : Option (Option String) :=
  if (i : Int) - 3 > 0 then
    match lines.get? (i - 3) with
    | none => none
    | some l =>
      some (if pyStartsWith l ".. _" then some (":ref:" ++ ⟨chTrim (l.data.drop 4)⟩)
        else none)
  else some none

/-- Embedding of `parse_class` (source lines 108–159): `i` is the index
of the header underline, `lines[i - 1]` the title (with Python's
negative-index semantics), an anchor line three lines above the
underline publishes a reference key, and the member table follows the
`- Description` marker.  `none` models any of the Python exceptions. -/
def parse_class (lines : List String) (i : Nat) (parent : Option ClassSchema) :
    Option (ClassSchema × Nat) :=
  match pyIdx lines ((i : Int) - 1) with
  | none => none
  | some titleLine =>
    match refAnchor lines i with
    | none => none
    | some reference =>
      match markerScan (lines.drop i) with
      | none => none
      | some mark =>
        match memberLoop lines (lines.length + 1) (i + mark + 1) [] with
        | none => none
        | some (raw, iEnd) =>
          match assembleMembers raw with
          | none => none
          | some members =>
            some (⟨⟨(chTrim ((chTitle false titleLine.data).filter (fun c => c ≠ ' '))).filter
                (fun c => c ≠ btChar)⟩,
              members, reference, parent.map (fun p => p.name), ""⟩, iEnd)

/-- Demonstration class section: title, underline, blank line, member
table marker, then one member block reaching the end of input. -/
def demoClassLines : List String :=
  ["Job information", "---------------", "", "   - Description",
   "``file``", "   - 1", "   - string", "   - The file"]

/-- The ClassSchema that `parse_class` produces from
`demoClassLines` at underline index 1. -/
def demoJobClass : ClassSchema :=
  ⟨"JobInformation", [⟨"file", some "str", some "The file", false⟩], none, none, ""⟩

/-- The reference table of the resolver (source lines 240–243): every
class publishing a reference key contributes `(key, (name, file))`;
Python dict assignment means a later publisher of the same key wins. -/
def refsOf (corpus : List ClassSchema) : List (String × String × String) :=
  corpus.filterMap (fun c => c.reference.map (fun r => (r, c.name, c.file)))

/-- Dictionary lookup in the reference table: the most recent (last)
binding of the key, as in a Python dict built by iterated assignment. -/
def lookupRef (refs : List (String × String × String)) (k : String) :
    Option (String × String) :=
  (refs.reverse.find? (fun e => e.1 == k)).map (fun e => e.2)

/-- Key extraction from a reference placeholder (source lines 251–254):
the angle-bracket embedding `:ref:See <key>` yields the text between
the brackets, otherwise the backtick embedding `:ref:`key`` yields the
text between the backticks; `none` models the `IndexError` when neither
delimiter is present. -/
def extractKey (t : String) : Option String :=
  if '<' ∈ t.data then
    match (chSplitOne '<' t.data).get? 1 with
    | some p => some (":ref:" ++ ⟨(chSplitOne '>' p).headI⟩ ++ ":")
    | none => none
  else
    match (chSplitOne btChar t.data).get? 1 with
    | some p => some (":ref:" ++ ⟨p⟩ ++ ":")
    | none => none

/-- Failure modes of the resolution pass: `unresolved` carries the
diagnostic of the `raise Exception` at source lines 256–258, and
`indexError` models the crash of key extraction on a placeholder
without delimiters. -/
inductive ResolveErr where
  | unresolved (msg : String)
  | indexError
deriving Repr, DecidableEq

/-- Resolve one member (source lines 249–259): a member whose type is a
`:ref:` placeholder has its key extracted and looked up; an absent key
aborts with a diagnostic naming the raw placeholder text. -/
def resolveMember (refs : List (String × String × String)) (m : Member) :
    Except ResolveErr Member :=
  match m.type with
  | none => .ok m
  | some t =>
    if pyStartsWith t ":ref:" then
      match extractKey t with
      | none => .error .indexError
      | some k =>
        match lookupRef refs k with
        | none => .error (.unresolved ("unresolved class type reference: '" ++ t ++ "'"))
        | some (nm, _) => .ok ⟨m.name, some nm, m.description, m.optional⟩
    else .ok m

/-- Exception-propagating traversal, modelling a Python `for` loop whose
body may raise: the first failure aborts the whole loop. -/
def exMapM {ε α β : Type} (f : α → Except ε β) : List α → Except ε (List β)
  | [] => .ok []
  | a :: l =>
    match f a with
    | .error e => .error e
    | .ok b =>
      match exMapM f l with
      | .error e => .error e
      | .ok bs => .ok (b :: bs)

/-- Resolve every member of one class. -/
def resolveClass (refs : List (String × String × String)) (c : ClassSchema) :
    Except ResolveErr ClassSchema :=
  match exMapM (resolveMember refs) c.members with
  | .error e => .error e
  | .ok ms => .ok ⟨c.name, ms, c.reference, c.parent, c.file⟩

/-- The Reference Resolver (source lines 240–259): build the reference
table from the whole corpus, then rewrite every placeholder member of
every class, aborting on the first unresolvable placeholder. -/
def resolveCorpus (corpus : List ClassSchema) : Except ResolveErr (List ClassSchema) :=
  exMapM (resolveClass (refsOf corpus)) corpus

/-- Dependency key of the orderer (source line 246): a class is
dependent when some member whose type is present is a `:ref:`
placeholder. -/
def hasRefMember (c : ClassSchema) : Bool :=
  c.members.any (fun m =>
    match m.type with
    | some t => pyStartsWith t ":ref:"
    | none => false)

/-- The Dependency Orderer (source line 246): stable sort placing every
class without placeholder members before every class with one. -/
def orderCorpus (corpus : List ClassSchema) : List ClassSchema :=
  stableSort (fun a b => !hasRefMember a || hasRefMember b) corpus

/-- The per-document scanning loop of `main` (source lines 202–215):
walk the lines, opening a class at each delimiter line and a subsection
class at each subsection-delimiter line.  The Python variable `parent`
(an ever-decreasing negative index into the accumulated class list) is
`none` while still unbound; using it unbound is Python's `NameError`,
modelled as `none`.  Fuel-indexed because `parse_class` advances the
index by a data-dependent amount. -/
def mainScan (lines : List String) (delim sub : String) :
    Nat → Nat → List ClassSchema → Option Int → Option (List ClassSchema)
  | 0, _, _, _ => none
  | fuel + 1, i, classes, parentIdx =>
    match lines.get? i with
    | none => some classes
    | some line =>
      if pyStartsWith line delim then
        match parse_class lines i none with
        | none => none
        | some (nc, i') => mainScan lines delim sub fuel i' (classes ++ [nc]) (some (-1))
      else if pyStartsWith line sub then
        match parentIdx with
        | none => none
        | some p =>
          match pyIdx classes p with
          | none => none
          | some pc =>
            match parse_class lines i (some pc) with
            | none => none
            | some (nc, i') => mainScan lines delim sub fuel i' (classes ++ [nc]) (some (p - 1))
      else mainScan lines delim sub fuel (i + 1) classes parentIdx

/-- Modelled from the spec: the design-note reading of subsection
parenting — each subsection class is attached to the most recently
seen top-level (class-boundary) class, carried directly instead of
through the source's negative-offset arithmetic.  Everything else
mirrors `mainScan`. -/
def mainScanSpec (lines : List String) (delim sub : String) :
    Nat → Nat → List ClassSchema → Option ClassSchema → Option (List ClassSchema)
  | 0, _, _, _ => none
  | fuel + 1, i, classes, lastTop =>
    match lines.get? i with
    | none => some classes
    | some line =>
      if pyStartsWith line delim then
        match parse_class lines i none with
        | none => none
        | some (nc, i') => mainScanSpec lines delim sub fuel i' (classes ++ [nc]) (some nc)
      else if pyStartsWith line sub then
        match lastTop with
        | none => none
        | some pc =>
          match parse_class lines i (some pc) with
          | none => none
          | some (nc, i') => mainScanSpec lines delim sub fuel i' (classes ++ [nc]) lastTop
      else mainScanSpec lines delim sub fuel (i + 1) classes lastTop

/-- Demonstration corpus for reference resolution: `Widget` publishes
the key `:ref:widget:`; `Panel` has a member typed with the backtick
placeholder referring to it. -/
def demoWidget : ClassSchema :=
  ⟨"Widget", [⟨"size", some "int", some "its size", false⟩], some ":ref:widget:", none,
    "widgets.py"⟩

/-- Demonstration dependent class with one placeholder member. -/
def demoPanel : ClassSchema :=
  ⟨"Panel", [⟨"widget", some ":ref:`widget`", some "the widget", false⟩], none, none,
    "panels.py"⟩

/-- Demonstration class whose placeholder key has no publisher, owned by
a class whose name `Zqx` appears nowhere in the diagnostic. -/
def demoOrphan : ClassSchema :=
  ⟨"Zqx", [⟨"thing", some ":ref:`missing`", some "d", false⟩], none, none, "z.py"⟩

/- ------------------------------------------------------------------ -/
/- Theorems.                                                           -/
/- ------------------------------------------------------------------ -/

/-- C6: the type normalizer fails, with a diagnostic embedding the raw
token verbatim, exactly on the tokens matched by none of its recognized
rules; every recognized token yields a result instead. -/
theorem parse_type_error_iff_unrecognized (t : String) :
    parse_type t = .error ("unsure how to parse type: '" ++ t ++ "'")
      ↔ recognizedType t = false := by
  unfold parse_type recognizedType
  by_cases h1 : pyStartsWith t "List of" <;>
  by_cases h2 : pyStartsWith t "Array of" <;>
  by_cases h3 : pyStartsWith t "Map of" <;>
  by_cases h4 : pyEndsWith t "or ``object" <;>
  by_cases h5 : pyStartsWith t "String, " <;>
  by_cases h6 : pyStartsWith t ":ref:" <;>
  cases h7 : typeConverter.lookup t <;>
  simp [h1, h2, h3, h4, h5, h6, h7]

/-- C6 witness: the concrete gibberish token `zzz` matches no rule and
produces the diagnostic naming it. -/
theorem parse_type_error_iff_unrecognized_witness :
    parse_type "zzz" = .error ("unsure how to parse type: '" ++ "zzz" ++ "'") :=
  (parse_type_error_iff_unrecognized "zzz").mpr (by decide)

/-- C7 counterexample: `STRING` is a case-insensitive variant of
`string`, yet the normalizer rejects it instead of returning the string
kind, refuting the claim that every case-insensitive variant of the
listed tokens is accepted.  (The bare token `timestamp` fails too.) -/
theorem parse_type_upper_string_fails :
    parse_type "STRING" = .error ("unsure how to parse type: 'STRING'")
      ∧ parse_type "timestamp" = .error ("unsure how to parse type: 'timestamp'") :=
  ⟨rfl, rfl⟩

/-- C7 amended: the normalizer accepts exactly the literal spellings of
its synonym table; for the tokens of the claim these are the lowercase
and capitalized forms (plus `bool`/`Bool`, `int`, the `Number` forms and
the two `Unix timestamp` spellings), each mapped to its canonical kind
(`str`/`bool`/`int`/`float`/`dict`/`list` in the emitted vocabulary). -/
theorem parse_type_table_spellings :
    parse_type "String" = .ok "str" ∧ parse_type "string" = .ok "str"
    ∧ parse_type "boolean" = .ok "bool" ∧ parse_type "Boolean" = .ok "bool"
    ∧ parse_type "bool" = .ok "bool" ∧ parse_type "Bool" = .ok "bool"
    ∧ parse_type "Integer" = .ok "int" ∧ parse_type "integer" = .ok "int"
    ∧ parse_type "int" = .ok "int"
    ∧ parse_type "Float" = .ok "float" ∧ parse_type "float" = .ok "float"
    ∧ parse_type "Number" = .ok "float"
    ∧ parse_type "Object" = .ok "dict" ∧ parse_type "object" = .ok "dict"
    ∧ parse_type "List" = .ok "list" ∧ parse_type "list" = .ok "list"
    ∧ parse_type "Unix Timestamp" = .ok "int" ∧ parse_type "Unix timestamp" = .ok "int" :=
  ⟨rfl, rfl, rfl, rfl, rfl, rfl, rfl, rfl, rfl, rfl, rfl, rfl, rfl, rfl, rfl, rfl, rfl, rfl⟩

/-- C2 evidence: on a block with one continuation line the member
parser consumes the continuation line (the returned next-line index 5
skips line 4, `"   continued here"`) yet the returned description is
`"first words"` alone, not `"first words continued here"` — the
source's `description` accumulator of lines 88–95 is never used by the
returned record (line 101). -/
theorem parse_member_drops_continuation :
    parse_member demoMemberLines 0
      = some (⟨"foo", some "str", some "first words", false⟩, 5) := rfl

/-- Inserting an element whose key is `false` puts it in front. -/
theorem insertStable_key_false {α : Type} (le : α → α → Bool) (key : α → Bool)
    (hle : ∀ a b, le a b = (!key a || key b)) (a : α) (ha : key a = false) (l : List α) :
    insertStable le a l = a :: l := by
  cases l with
  | nil => rfl
  | cons b l => unfold insertStable; rw [hle a b, ha]; simp

/-- Inserting an element whose key is `true` walks past every element
whose key is `false`. -/
theorem insertStable_key_true_append {α : Type} (le : α → α → Bool) (key : α → Bool)
    (hle : ∀ a b, le a b = (!key a || key b)) (a : α) (ha : key a = true) :
    ∀ A B : List α, (∀ b ∈ A, key b = false) →
      insertStable le a (A ++ B) = A ++ insertStable le a B
  | [], B, _ => rfl
  | b :: A, B, hA => by
    have hb : key b = false := hA b (List.mem_cons_self b A)
    simp only [List.cons_append, insertStable, hle a b, ha, hb]
    simp only [Bool.not_true, Bool.false_or, if_neg Bool.false_ne_true]
    exact congrArg (fun l => b :: l)
      (insertStable_key_true_append le key hle a ha A B
        (fun x hx => hA x (List.mem_cons_of_mem b hx)))

/-- Inserting an element whose key is `true` in front of an all-`true`
block keeps it first. -/
theorem insertStable_key_true_front {α : Type} (le : α → α → Bool) (key : α → Bool)
    (hle : ∀ a b, le a b = (!key a || key b)) (a : α) (ha : key a = true) (B : List α)
    (hB : ∀ b ∈ B, key b = true) : insertStable le a B = a :: B := by
  cases B with
  | nil => rfl
  | cons b B =>
    have hb : key b = true := hB b (List.mem_cons_self b B)
    simp [insertStable, hle a b, ha, hb]

/-- A stable sort on a Boolean key is exactly the partition: the
key-`false` elements in original order, then the key-`true` elements in
original order. -/
theorem stableSort_boolKey {α : Type} (le : α → α → Bool) (key : α → Bool)
    (hle : ∀ a b, le a b = (!key a || key b)) :
    ∀ l : List α, stableSort le l = l.filter (fun x => !key x) ++ l.filter (fun x => key x)
  | [] => rfl
  | a :: l => by
    have ih := stableSort_boolKey le key hle l
    simp only [stableSort, ih]
    by_cases ha : key a
    · rw [insertStable_key_true_append le key hle a ha _ _
        (fun b hb => by simpa using (List.mem_filter.mp hb).2)]
      rw [insertStable_key_true_front le key hle a ha _
        (fun b hb => by simpa using (List.mem_filter.mp hb).2)]
      simp [List.filter_cons, ha]
    · have ha' : key a = false := by simpa using ha
      rw [insertStable_key_false le key hle a ha']
      simp [List.filter_cons, ha']

/-- C5: the Dependency Orderer is the stable partition — every class
without a placeholder member precedes every class with one, each block
keeping its original corpus order; in particular the independent
`Widget` is emitted before the dependent `Panel` even when discovered
after it. -/
theorem orderCorpus_independents_first :
    (∀ corpus : List ClassSchema,
        orderCorpus corpus
          = corpus.filter (fun c => !hasRefMember c) ++ corpus.filter (fun c => hasRefMember c))
    ∧ orderCorpus [demoPanel, demoWidget] = [demoWidget, demoPanel] :=
  ⟨fun corpus => stableSort_boolKey _ hasRefMember (fun _ _ => rfl) corpus, rfl⟩

/-- C1 counterexample: folding the leaves `a.b` (required) and `a.c`
(optional), with no standalone `a`, synthesizes `a` with
`optional = false`, because the source (line 140) reads the flag only
from members named like the leaf that triggers the synthesis — the
first dotted leaf — so the claimed `optional = true` (some leaf was
optional) is refuted. -/
theorem assemble_dotted_optional_counterexample :
    assembleMembers
        [⟨"a.b", some "str", some "d1", false⟩, ⟨"a.c", some "str", some "d2", true⟩]
      = some [⟨"a", some "dict", none, false⟩] := rfl

/-- C1 amended: for dotted leaves sharing a prefix absent as a
standalone member, assembly synthesizes exactly one member named after
the prefix, of kind mapping (`dict`), and removes the leaves — but its
`optional` flag equals the flag of the first leaf carrying the prefix
(here `a.b`), not the disjunction over all folded leaves.  Stated over
all flag and description choices, with an unrelated required member
preserved. -/
theorem assemble_dotted_fold_first_leaf (o1 o2 : Bool) (d d1 d2 : Option String) :
    assembleMembers
        [⟨"x", some "str", d, false⟩, ⟨"a.b", some "str", d1, o1⟩,
         ⟨"a.c", some "str", d2, o2⟩]
      = some [⟨"x", some "str", d, false⟩, ⟨"a", some "dict", none, o1⟩] := by
  cases o1 <;> cases o2 <;> rfl

/-- C3 counterexample: a class with the keyword-capture raw member
`<command>` (required) and an optional member `x` assembles to the
keyword-capture member first and `x` after it — the keyword-capture
member is not last, refuting "always last": the rewrite forces its
`optional` to `false`, and the final stable sort places it among the
required members, before every optional member. -/
theorem assemble_kwargs_not_last_counterexample :
    assembleMembers
        [⟨"<command>", some "str", some "dc", false⟩, ⟨"x", some "str", some "dx", true⟩]
      = some [⟨"**kwargs", none, some "dc", false⟩, ⟨"x", some "str", some "dx", true⟩] := rfl

/-- When the exception-propagating loop succeeds, every element's body
call succeeded. -/
theorem exMapM_ok_forall {ε α β : Type} (f : α → Except ε β) :
    ∀ (l : List α) (l' : List β), exMapM f l = .ok l' → ∀ x ∈ l, ∃ y, f x = .ok y := by
  intro l
  induction l with
  | nil => intro l' _ x hx; simp at hx
  | cons a l ih =>
    intro l' h x hx
    unfold exMapM at h
    cases hfa : f a with
    | error e => simp [hfa] at h
    | ok b =>
      cases hrest : exMapM f l with
      | error e => simp [hfa, hrest] at h
      | ok bs =>
        rcases List.mem_cons.mp hx with rfl | hx'
        · exact ⟨b, hfa⟩
        · exact ih bs hrest x hx'

/-- A failure of the exception-propagating loop is the failure of some
element's body call. -/
theorem exMapM_error_mem {ε α β : Type} (f : α → Except ε β) :
    ∀ (l : List α) (e : ε), exMapM f l = .error e → ∃ x ∈ l, f x = .error e := by
  intro l
  induction l with
  | nil => intro e h; simp [exMapM] at h
  | cons a l ih =>
    intro e h
    unfold exMapM at h
    cases hfa : f a with
    | error e' =>
      simp [hfa] at h
      exact ⟨a, List.mem_cons_self a l, by rw [hfa, h]⟩
    | ok b =>
      cases hrest : exMapM f l with
      | error e' =>
        simp [hfa, hrest] at h
        obtain ⟨x, hx, hfx⟩ := ih e' hrest
        exact ⟨x, List.mem_cons_of_mem a hx, by rw [hfx, h]⟩
      | ok bs => simp [hfa, hrest] at h

/-- A success of the exception-propagating loop maps each position of
the input to the corresponding position of the output. -/
theorem exMapM_ok_get {ε α β : Type} (f : α → Except ε β) :
    ∀ (l : List α) (l' : List β), exMapM f l = .ok l' →
      ∀ (i : Nat) (x : α), l.get? i = some x → ∃ y, f x = .ok y ∧ l'.get? i = some y := by
  intro l
  induction l with
  | nil => intro l' _ i x hx; simp at hx
  | cons a l ih =>
    intro l' h i x hx
    unfold exMapM at h
    cases hfa : f a with
    | error e => simp [hfa] at h
    | ok b =>
      cases hrest : exMapM f l with
      | error e => simp [hfa, hrest] at h
      | ok bs =>
        simp only [hfa, hrest] at h
        have hl' : b :: bs = l' := Except.ok.inj h
        subst hl'
        cases i with
        | zero =>
          simp only [List.get?_cons_zero, Option.some.injEq] at hx
          subst hx
          exact ⟨b, hfa, rfl⟩
        | succ i =>
          simp only [List.get?_cons_succ] at hx ⊢
          exact ih bs hrest i x hx

/-- C4 counterexample: resolving a corpus whose class `Zqx` carries the
unresolvable placeholder `:ref:`missing`` aborts with a diagnostic that
embeds the placeholder text but does not mention the owning class name
anywhere, refuting the claim that the diagnostic names both. -/
theorem resolve_diagnostic_omits_class_counterexample :
    resolveCorpus [demoOrphan]
      = .error (.unresolved "unresolved class type reference: ':ref:`missing`'")
    ∧ decide ("Zqx".data <:+: "unresolved class type reference: ':ref:`missing`'".data)
        = false :=
  ⟨rfl, by decide⟩

/-- C4 amended: a placeholder member whose extracted key is absent from
the reference table makes the resolution pass abort — it can never
return a resolved corpus — and every unresolved-reference diagnostic it
can produce names the raw placeholder text of some placeholder member
(the owning class is not part of the diagnostic). -/
theorem resolve_missing_key_aborts (corpus : List ClassSchema) (c : ClassSchema) (m : Member)
    (t k : String) (hc : c ∈ corpus) (hm : m ∈ c.members) (ht : m.type = some t)
    (hr : pyStartsWith t ":ref:" = true) (hk : extractKey t = some k)
    (hl : lookupRef (refsOf corpus) k = none) :
    (∀ out, resolveCorpus corpus ≠ .ok out)
    ∧ ∀ msg, resolveCorpus corpus = .error (.unresolved msg) →
        ∃ c' ∈ corpus, ∃ m' ∈ c'.members, ∃ t', m'.type = some t'
          ∧ pyStartsWith t' ":ref:" = true
          ∧ msg = "unresolved class type reference: '" ++ t' ++ "'" := by
  constructor
  · intro out hout
    obtain ⟨y, hy⟩ := exMapM_ok_forall _ corpus out hout c hc
    unfold resolveClass at hy
    cases hms : exMapM (resolveMember (refsOf corpus)) c.members with
    | error e => rw [hms] at hy; exact absurd hy (by simp)
    | ok ms =>
      obtain ⟨y', hy'⟩ := exMapM_ok_forall _ c.members ms hms m hm
      unfold resolveMember at hy'
      rw [ht] at hy'
      simp [hr, hk, hl] at hy'
  · intro msg hmsg
    obtain ⟨c', hc', hcc⟩ := exMapM_error_mem _ corpus _ hmsg
    unfold resolveClass at hcc
    cases hms : exMapM (resolveMember (refsOf corpus)) c'.members with
    | error e =>
      rw [hms] at hcc
      have he : e = .unresolved msg := by
        simpa using hcc
      subst he
      obtain ⟨m', hm', hmm⟩ := exMapM_error_mem _ c'.members _ hms
      refine ⟨c', hc', m', hm', ?_⟩
      unfold resolveMember at hmm
      cases htt : m'.type with
      | none => rw [htt] at hmm; simp at hmm
      | some t' =>
        rw [htt] at hmm
        by_cases hrr : pyStartsWith t' ":ref:" = true
        · cases hke : extractKey t' with
          | none => simp [hrr, hke] at hmm
          | some k' =>
            cases hlk : lookupRef (refsOf corpus) k' with
            | none =>
              simp [hrr, hke, hlk] at hmm
              exact ⟨t', rfl, hrr, hmm.symm⟩
            | some pr => simp [hrr, hke, hlk] at hmm
        · simp [hrr] at hmm
    | ok ms => rw [hms] at hcc; exact absurd hcc (by simp)

/-- C4 witness: the single-class corpus around `Zqx` satisfies every
hypothesis, and the diagnostic its failing run produces names the
placeholder text of one of its members. -/
theorem resolve_missing_key_aborts_witness :
    ∃ c' ∈ [demoOrphan], ∃ m' ∈ c'.members, ∃ t', m'.type = some t'
      ∧ pyStartsWith t' ":ref:" = true
      ∧ "unresolved class type reference: ':ref:`missing`'"
          = "unresolved class type reference: '" ++ t' ++ "'" :=
  (resolve_missing_key_aborts [demoOrphan] demoOrphan
    ⟨"thing", some ":ref:`missing`", some "d", false⟩ ":ref:`missing`" ":ref:missing:"
    (by simp) (by simp [demoOrphan]) rfl rfl rfl rfl).2
    "unresolved class type reference: ':ref:`missing`'" rfl

/-- C8: on the success path of the resolver, every placeholder member
whose extracted key is published is rewritten in place to the
publishing class's name, all other fields kept. -/
theorem resolve_success_rewrites (corpus out : List ClassSchema)
    (h : resolveCorpus corpus = .ok out) (ci mi : Nat) (c : ClassSchema) (m : Member)
    (t k nm fl : String) (hc : corpus.get? ci = some c) (hm : c.members.get? mi = some m)
    (ht : m.type = some t) (hr : pyStartsWith t ":ref:" = true)
    (hk : extractKey t = some k) (hl : lookupRef (refsOf corpus) k = some (nm, fl)) :
    ∃ c', out.get? ci = some c'
      ∧ c'.members.get? mi = some ⟨m.name, some nm, m.description, m.optional⟩ := by
  obtain ⟨y, hy, hout⟩ := exMapM_ok_get _ corpus out h ci c hc
  unfold resolveClass at hy
  cases hms : exMapM (resolveMember (refsOf corpus)) c.members with
  | error e => rw [hms] at hy; exact absurd hy (by simp)
  | ok ms =>
    rw [hms] at hy
    have hy2 : (⟨c.name, ms, c.reference, c.parent, c.file⟩ : ClassSchema) = y :=
      Except.ok.inj hy
    obtain ⟨y', hy', hpos⟩ := exMapM_ok_get _ c.members ms hms mi m hm
    have hcomp : resolveMember (refsOf corpus) m
        = .ok ⟨m.name, some nm, m.description, m.optional⟩ := by
      unfold resolveMember
      rw [ht]
      simp [hr, hk, hl]
    rw [hcomp] at hy'
    have hy'' : (⟨m.name, some nm, m.description, m.optional⟩ : Member) = y' :=
      Except.ok.inj hy'
    subst hy''
    exact ⟨y, hout, by rw [← hy2]; exact hpos⟩

/-- C8 witness: class `Widget` publishes `:ref:widget:`; the member of
`Panel` typed `:ref:`widget`` resolves to type `Widget` at its original
position. -/
theorem resolve_success_rewrites_witness :
    ∃ c', ([⟨"Widget", [⟨"size", some "int", some "its size", false⟩],
              some ":ref:widget:", none, "widgets.py"⟩,
            ⟨"Panel", [⟨"widget", some "Widget", some "the widget", false⟩],
              none, none, "panels.py"⟩] : List ClassSchema).get? 1 = some c'
      ∧ c'.members.get? 0 = some ⟨"widget", some "Widget", some "the widget", false⟩ :=
  resolve_success_rewrites [demoWidget, demoPanel]
    [⟨"Widget", [⟨"size", some "int", some "its size", false⟩],
        some ":ref:widget:", none, "widgets.py"⟩,
     ⟨"Panel", [⟨"widget", some "Widget", some "the widget", false⟩],
        none, none, "panels.py"⟩]
    rfl 1 0 demoPanel ⟨"widget", some ":ref:`widget`", some "the widget", false⟩
    ":ref:`widget`" ":ref:widget:" "Widget" "widgets.py" rfl rfl rfl rfl rfl rfl

/-- When no remaining line strips to the marker, the marker scan fails
(the Python `while` walks off the end of `lines` and raises). -/
theorem markerScan_eq_none (ls : List String)
    (h : ∀ l ∈ ls, chTrim l.data ≠ "- Description".data) : markerScan ls = none := by
  induction ls with
  | nil => rfl
  | cons l rest ih =>
    unfold markerScan
    rw [if_neg (h l (List.mem_cons_self l rest)),
      ih (fun x hx => h x (List.mem_cons_of_mem l hx))]
    rfl

/-- C9: a section body containing no line that strips to the literal
member-table marker `- Description` at or after the underline index
makes `parse_class` fail (it returns no ClassSchema; the embedding is
total, so it cannot diverge either). -/
theorem parse_class_fails_without_marker (lines : List String) (i : Nat)
    (parent : Option ClassSchema)
    (h : ∀ l ∈ lines.drop i, chTrim l.data ≠ "- Description".data) :
    parse_class lines i parent = none := by
  have hm : markerScan (lines.drop i) = none := markerScan_eq_none _ h
  cases hx : pyIdx lines ((i : Int) - 1) with
  | none => simp [parse_class, hx]
  | some t =>
    cases hr : refAnchor lines i with
    | none => simp [parse_class, hx, hr]
    | some r => simp [parse_class, hx, hr, hm]

/-- C9 witness: a line list with no marker makes the class parser fail
at once. -/
theorem parse_class_fails_without_marker_witness :
    parse_class ["Job information", "---------------", "no marker here"] 1 none = none :=
  parse_class_fails_without_marker _ 1 none (by decide)

/-- Python index `-1` into a list extended on the right picks the new
last element. -/
theorem pyIdx_concat_self {α : Type} (l : List α) (a : α) : pyIdx (l ++ [a]) (-1) = some a := by
  unfold pyIdx
  rw [if_pos (by norm_num)]
  have h1 : ((-(-1) : Int)).toNat = 1 := rfl
  rw [h1, if_pos (by simp [List.length_append])]
  simp [List.length_append, List.get?_concat_length]

/-- Appending one element on the right while decrementing a negative
Python index leaves the selected element unchanged. -/
theorem pyIdx_append_decr {α : Type} (l : List α) (a : α) (p : Int) (x : α)
    (hp : p < 0) (hx : pyIdx l p = some x) : pyIdx (l ++ [a]) (p - 1) = some x := by
  unfold pyIdx at hx ⊢
  rw [if_pos hp] at hx
  rw [if_pos (by omega : p - 1 < 0)]
  by_cases hle : (-p).toNat ≤ l.length
  · rw [if_pos hle] at hx
    have hlen : (-(p - 1)).toNat = (-p).toNat + 1 := by omega
    have hle' : (-(p - 1)).toNat ≤ (l ++ [a]).length := by
      simp only [List.length_append, List.length_singleton]; omega
    rw [if_pos hle', hlen]
    have hone : 1 ≤ (-p).toNat := by omega
    have hidx : (l ++ [a]).length - ((-p).toNat + 1) = l.length - (-p).toNat := by
      simp only [List.length_append, List.length_singleton]; omega
    rw [hidx, List.get?_append (by omega : l.length - (-p).toNat < l.length)]
    exact hx
  · rw [if_neg hle] at hx; exact absurd hx (by simp)

/-- The scanning loop of `main` agrees with the design-intent model:
whenever the source's negative `parent` offset currently selects the
most recently seen top-level class (or both are still unbound), the two
scans coincide forever after.  The offset stays valid because every
subsection appends one class while decrementing the offset by one. -/
theorem mainScan_eq_spec_aux (lines : List String) (delim sub : String) :
    ∀ (fuel i : Nat) (classes : List ClassSchema) (parentIdx : Option Int)
      (lastTop : Option ClassSchema),
      (parentIdx = none ∧ lastTop = none
        ∨ ∃ p pc, parentIdx = some p ∧ lastTop = some pc ∧ p < 0 ∧ pyIdx classes p = some pc) →
      mainScan lines delim sub fuel i classes parentIdx
        = mainScanSpec lines delim sub fuel i classes lastTop := by
  intro fuel
  induction fuel with
  | zero => intro i classes pI lT _; rfl
  | succ fuel ih =>
    intro i classes pI lT hR
    simp only [mainScan, mainScanSpec]
    cases hline : lines.get? i with
    | none => rfl
    | some line =>
      by_cases hd : pyStartsWith line delim = true
      · cases hp : parse_class lines i none with
        | none => simp [hd, hp]
        | some r =>
          simp only [hd, hp, if_pos]
          exact ih r.2 (classes ++ [r.1]) (some (-1)) (some r.1)
            (Or.inr ⟨-1, r.1, rfl, rfl, by norm_num, pyIdx_concat_self classes r.1⟩)
      · by_cases hs : pyStartsWith line sub = true
        · rcases hR with ⟨hpI, hlT⟩ | ⟨p, pc, hpI, hlT, hplt, hpy⟩
          · subst hpI; subst hlT; simp [hd, hs]
          · subst hpI; subst hlT
            cases hp : parse_class lines i (some pc) with
            | none => simp [hd, hs, hpy, hp]
            | some r =>
              simp only [hd, hs, hpy, hp, if_neg, if_pos, Bool.not_eq_true]
              exact ih r.2 (classes ++ [r.1]) (some (p - 1)) (some pc)
                (Or.inr ⟨p - 1, pc, rfl, rfl, by omega,
                  pyIdx_append_decr classes r.1 p pc hplt hpy⟩)
        · simp only [hd, hs, Bool.not_eq_true, if_neg]
          exact ih (i + 1) classes pI lT hR

/-- C10: starting a document scan with the `parent` offset unbound, the
source's negative-offset bookkeeping coincides with the design-intent
model that attaches every subsection class to the most recently seen
class-boundary class — however many subsections intervene — and both
fail alike when a subsection appears before any class boundary. -/
theorem mainScan_parent_is_most_recent_top (lines : List String) (delim sub : String)
    (fuel : Nat) :
    mainScan lines delim sub fuel 0 [] none = mainScanSpec lines delim sub fuel 0 [] none :=
  mainScan_eq_spec_aux lines delim sub fuel 0 [] none none (Or.inl ⟨rfl, rfl⟩)


/-- Characters surviving the `{n}` removal come from the input. -/
theorem chRemoveBrN_mem (c : Char) : ∀ l : List Char, c ∈ chRemoveBrN l → c ∈ l := by
  intro l
  induction l using chRemoveBrN.induct with
  | case1 => intro h; simp [chRemoveBrN] at h
  | case2 c1 => intro h; simpa [chRemoveBrN] using h
  | case3 c1 c2 => intro h; simpa [chRemoveBrN] using h
  | case4 c1 c2 c3 rest hcond ih =>
    intro h
    rw [chRemoveBrN, if_pos hcond] at h
    have := ih h
    simp only [List.mem_cons]
    exact Or.inr (Or.inr (Or.inr this))
  | case5 c1 c2 c3 rest hcond ih =>
    intro h
    rw [chRemoveBrN, if_neg hcond] at h
    rcases List.mem_cons.mp h with h1 | h2
    · exact h1 ▸ List.mem_cons_self _ _
    · exact List.mem_cons_of_mem c1 (ih h2)

/-- A single-character split never returns an empty piece list. -/
theorem chSplitOne_ne_nil (c : Char) (l : List Char) : chSplitOne c l ≠ [] := by
  cases l with
  | nil => simp [chSplitOne]
  | cons x rest =>
    simp only [chSplitOne]
    by_cases hx : x = c
    · simp [hx]
    · rw [if_neg hx]
      cases chSplitOne c rest <;> simp

/-- No piece of a single-character split contains the separator. -/
theorem chSplitOne_not_mem (c : Char) : ∀ (l : List Char) (p : List Char),
    p ∈ chSplitOne c l → c ∉ p := by
  intro l
  induction l with
  | nil =>
    intro p hp
    simp [chSplitOne] at hp
    subst hp; simp
  | cons x rest ih =>
    intro p hp
    simp only [chSplitOne] at hp
    by_cases hx : x = c
    · rw [if_pos hx] at hp
      rcases List.mem_cons.mp hp with h1 | h2
      · subst h1; simp
      · exact ih p h2
    · rw [if_neg hx] at hp
      cases hsp : chSplitOne c rest with
      | nil => exact absurd hsp (chSplitOne_ne_nil c rest)
      | cons q qs =>
        rw [hsp] at hp
        rcases List.mem_cons.mp hp with h1 | h2
        · subst h1
          intro hc
          rcases List.mem_cons.mp hc with h3 | h4
          · exact hx h3.symm
          · exact ih q (by rw [hsp]; exact List.mem_cons_self q qs) h4
        · exact ih p (by rw [hsp]; exact List.mem_cons_of_mem q h2)

/-- Dropping to a position whose lookup succeeds exposes that element. -/
theorem drop_cons_of_get {α : Type} : ∀ (l : List α) (k : Nat) (a : α),
    l.get? k = some a → l.drop k = a :: l.drop (k + 1) := by
  intro l
  induction l with
  | nil => intro k a h; simp at h
  | cons b l ih =>
    intro k a h
    cases k with
    | zero =>
      simp only [List.get?_cons_zero, Option.some.injEq] at h
      subst h; simp
    | succ k =>
      simp only [List.get?_cons_succ] at h
      simp only [List.drop_succ_cons]
      exact ih k a h

/-- The default-valued head of a nonempty list is a member of it. -/
theorem headI_mem_of_ne_nil {α : Type} [Inhabited α] (l : List α) (h : l ≠ []) :
    l.headI ∈ l := by
  cases l with
  | nil => exact absurd rfl h
  | cons a l => simp

/-- Dotted-folding invariant: when every dotted member name still
appears in the unprocessed part of the `names` list, the fold removes
every dotted name, so the result has none. -/
theorem foldStep_nodot : ∀ (fuel : Nat) (ms : List Member) (names : List String) (k : Nat)
    (out : List Member), foldStep fuel ms names k = some out →
    (∀ m ∈ ms, '.' ∈ m.name.data → m.name ∈ names.drop k) →
    ∀ m ∈ out, '.' ∉ m.name.data := by
  intro fuel
  induction fuel with
  | zero => intro ms names k out h _; simp [foldStep] at h
  | succ fuel ih =>
    intro ms names k out h hin
    simp only [foldStep] at h
    cases hget : names.get? k with
    | none =>
      simp only [hget] at h
      have hms : ms = out := Option.some.inj h
      subst hms
      intro m hm hdot
      have hdrop := hin m hm hdot
      have hk : names.length ≤ k := by
        by_contra hlt
        push_neg at hlt
        rw [List.get?_eq_get hlt] at hget
        simp at hget
      rw [List.drop_eq_nil_of_le hk] at hdrop
      simp at hdrop
    | some nm =>
      simp only [hget] at h
      have hdropk := drop_cons_of_get names k nm hget
      by_cases hdot : '.' ∈ nm.data
      · rw [if_pos hdot] at h
        by_cases hcon : names.contains (⟨(chSplitOne '.' nm.data).headI⟩ : String) = true
        · rw [if_pos hcon] at h
          refine ih _ names (k + 1) out h ?_
          intro m hm hd
          have hm' := List.mem_filter.mp hm
          have hne : m.name ≠ nm := by simpa using hm'.2
          have := hin m hm'.1 hd
          rw [hdropk] at this
          rcases List.mem_cons.mp this with h1 | h2
          · exact absurd h1 hne
          · exact h2
        · rw [if_neg hcon] at h
          refine ih _ (names ++ [⟨(chSplitOne '.' nm.data).headI⟩]) (k + 1) out h ?_
          intro m hm hd
          have hm' := List.mem_filter.mp hm
          have hne : m.name ≠ nm := by simpa using hm'.2
          have hklen : k < names.length := by
            by_contra hge
            push_neg at hge
            rw [List.get?_eq_none.mpr hge] at hget
            simp at hget
          have happ : (names ++ [(⟨(chSplitOne '.' nm.data).headI⟩ : String)]).drop (k + 1)
              = names.drop (k + 1) ++ [⟨(chSplitOne '.' nm.data).headI⟩] :=
            List.drop_append_of_le_length (by omega)
          rcases List.mem_append.mp hm'.1 with hms | hsy
          · have := hin m hms hd
            rw [hdropk] at this
            rcases List.mem_cons.mp this with h1 | h2
            · exact absurd h1 hne
            · rw [happ]; exact List.mem_append_left _ h2
          · simp only [List.mem_singleton] at hsy
            subst hsy
            simp only at hd
            have hdp : '.' ∈ (chSplitOne '.' nm.data).headI :=
              List.mem_of_mem_filter hd
            have hmemp : (chSplitOne '.' nm.data).headI ∈ chSplitOne '.' nm.data :=
              headI_mem_of_ne_nil _ (chSplitOne_ne_nil '.' nm.data)
            exact absurd hdp (chSplitOne_not_mem '.' nm.data _ hmemp)
      · rw [if_neg hdot] at h
        refine ih ms names (k + 1) out h ?_
        intro m hm hd
        have := hin m hm hd
        rw [hdropk] at this
        rcases List.mem_cons.mp this with h1 | h2
        · rw [h1] at hd; exact absurd hd hdot
        · exact h2

/-- Dotted folding preserves the absence of kind-`none` members: the
only member it creates is the `dict` composite. -/
theorem foldStep_type_ne_none : ∀ (fuel : Nat) (ms : List Member) (names : List String)
    (k : Nat) (out : List Member), foldStep fuel ms names k = some out →
    (∀ m ∈ ms, m.type ≠ none) → ∀ m ∈ out, m.type ≠ none := by
  intro fuel
  induction fuel with
  | zero => intro ms names k out h _; simp [foldStep] at h
  | succ fuel ih =>
    intro ms names k out h hin
    simp only [foldStep] at h
    cases hget : names.get? k with
    | none =>
      simp only [hget] at h
      have hms : ms = out := Option.some.inj h
      subst hms
      exact hin
    | some nm =>
      simp only [hget] at h
      by_cases hdot : '.' ∈ nm.data
      · rw [if_pos hdot] at h
        by_cases hcon : names.contains (⟨(chSplitOne '.' nm.data).headI⟩ : String) = true
        · rw [if_pos hcon] at h
          exact ih _ names (k + 1) out h
            (fun m hm => hin m (List.mem_filter.mp hm).1)
        · rw [if_neg hcon] at h
          refine ih _ _ (k + 1) out h ?_
          intro m hm
          rcases List.mem_append.mp (List.mem_filter.mp hm).1 with hms | hsy
          · exact hin m hms
          · simp only [List.mem_singleton] at hsy
            subst hsy
            simp
      · rw [if_neg hdot] at h
        exact ih ms names (k + 1) out h hin

/-- Every member the member parser returns carries a present type. -/
theorem parse_member_type_some (lines : List String) (i : Nat) (m : Member) (j : Nat)
    (h : parse_member lines i = some (m, j)) : ∃ t, m.type = some t := by
  unfold parse_member at h
  cases h0 : lines.get? i with
  | none => simp only [h0] at h; exact Option.noConfusion h
  | some l0 =>
  simp only [h0] at h
  cases h1 : (chSplit2 btChar btChar l0.data).get? 1 with
  | none => simp only [h1] at h; exact Option.noConfusion h
  | some namePiece =>
  simp only [h1] at h
  cases h2 : lines.get? (i + 2) with
  | none => simp only [h2] at h; exact Option.noConfusion h
  | some l2 =>
  simp only [h2] at h
  cases h3 : (parse_type ⟨chStripChar btChar (afterDash l2).data⟩).toOption with
  | none => simp only [h3] at h; exact Option.noConfusion h
  | some ty =>
  simp only [h3] at h
  cases h4 : lines.get? (i + 3) with
  | none => simp only [h4] at h; exact Option.noConfusion h
  | some l3 =>
  simp only [h4] at h
  cases h5 : lines.get? (i + 1) with
  | none => simp only [h5] at h; exact Option.noConfusion h
  | some l1 =>
  simp only [h5] at h
  cases h6 : (chSplitOne '-' l1.data).get? 1 with
  | none => simp only [h6] at h; exact Option.noConfusion h
  | some multPiece =>
  simp only [h6, Option.some.injEq, Prod.mk.injEq] at h
  obtain ⟨hm, hj⟩ := h
  subst hm
  exact ⟨ty, rfl⟩

/-- Every output of the option-propagating traversal is the image of
some input element. -/
theorem optMapM_mem {α β : Type} (f : α → Option β) :
    ∀ (l : List α) (l' : List β), optMapM f l = some l' → ∀ y ∈ l', ∃ x ∈ l, f x = some y := by
  intro l
  induction l with
  | nil =>
    intro l' h y hy
    simp only [optMapM] at h
    have := Option.some.inj h
    subst this
    simp at hy
  | cons a l ih =>
    intro l' h y hy
    simp only [optMapM] at h
    cases hfa : f a with
    | none => rw [hfa] at h; simp at h
    | some b =>
      rw [hfa] at h
      cases hrest : optMapM f l with
      | none => rw [hrest] at h; simp at h
      | some bs =>
        rw [hrest] at h
        simp only [Option.some.injEq] at h
        subst h
        rcases List.mem_cons.mp hy with h1 | h2
        · exact ⟨a, List.mem_cons_self a l, h1 ▸ hfa⟩
        · obtain ⟨x, hx, hfx⟩ := ih bs hrest y h2
          exact ⟨x, List.mem_cons_of_mem a hx, hfx⟩

/-- Any property granted by the member parser and holding of the
accumulator holds of every member the member loop returns. -/
theorem memberLoop_prop (P : Member → Prop)
    (hPM : ∀ (li : List String) (i : Nat) (m : Member) (j : Nat),
      parse_member li i = some (m, j) → P m) (lines : List String) :
    ∀ (fuel i : Nat) (acc : List Member) (out : List Member × Nat),
      memberLoop lines fuel i acc = some out → (∀ m ∈ acc, P m) → ∀ m ∈ out.1, P m := by
  intro fuel
  induction fuel with
  | zero => intro i acc out h _; simp [memberLoop] at h
  | succ fuel ih =>
    intro i acc out h hacc
    simp only [memberLoop] at h
    cases hpm : parse_member lines i with
    | none => simp only [hpm] at h; exact Option.noConfusion h
    | some r =>
      cases r with
      | mk m0 i' =>
      simp only [hpm] at h
      have hP : ∀ m ∈ acc ++ [m0], P m := by
        intro m hm
        rcases List.mem_append.mp hm with h1 | h2
        · exact hacc m h1
        · simp only [List.mem_singleton] at h2
          subst h2
          exact hPM lines i _ i' hpm
      cases hget : lines.get? i' with
      | none =>
        simp only [hget] at h
        have := Option.some.inj h
        subst this
        exact hP
      | some l =>
        simp only [hget] at h
        by_cases hb : chTrim l.data = []
        · rw [if_pos hb] at h
          have := Option.some.inj h
          subst this
          exact hP
        · rw [if_neg hb] at h
          exact ih i' (acc ++ [m0]) out h hP

/-- The name-shape rewrite cannot introduce a dot into a member name. -/
theorem rewriteShape_nodot (m m' : Member) (h : rewriteShape m = some m')
    (hm : '.' ∉ m.name.data) : '.' ∉ m'.name.data := by
  unfold rewriteShape at h
  by_cases he : pyEndsWith m.name "{n}" = true
  · rw [if_pos he] at h
    have := Option.some.inj h
    subst this
    intro hd
    exact hm (chRemoveBrN_mem '.' _ hd)
  · rw [if_neg he] at h
    cases hh : m.name.data.head? with
    | none => rw [hh] at h; simp at h
    | some c0 =>
      cases hl : m.name.data.getLast? with
      | none => rw [hh, hl] at h; simp at h
      | some cl =>
        rw [hh, hl] at h
        simp only at h
        by_cases hc : c0 = '<' ∧ cl = '>'
        · rw [if_pos hc] at h
          have := Option.some.inj h
          subst this
          exact (by decide : ('.' : Char) ∉ ("**kwargs" : String).data)
        · rw [if_neg hc] at h
          have := Option.some.inj h
          subst this
          exact hm

/-- After the name-shape rewrite, a member of kind `none` can only be
the keyword-capture member: named `**kwargs` and not optional. -/
theorem rewriteShape_kwargs (m m' : Member) (h : rewriteShape m = some m')
    (hm : m.type ≠ none) : m'.type = none → m'.name = "**kwargs" ∧ m'.optional = false := by
  unfold rewriteShape at h
  by_cases he : pyEndsWith m.name "{n}" = true
  · rw [if_pos he] at h
    have := Option.some.inj h
    subst this
    intro ht
    simp at ht
  · rw [if_neg he] at h
    cases hh : m.name.data.head? with
    | none => rw [hh] at h; simp at h
    | some c0 =>
      cases hl : m.name.data.getLast? with
      | none => rw [hh, hl] at h; simp at h
      | some cl =>
        rw [hh, hl] at h
        simp only at h
        by_cases hc : c0 = '<' ∧ cl = '>'
        · rw [if_pos hc] at h
          have := Option.some.inj h
          subst this
          intro _
          exact ⟨rfl, rfl⟩
        · rw [if_neg hc] at h
          have := Option.some.inj h
          subst this
          intro ht
          exact absurd ht hm

/-- Stable insertion adds no elements beyond the inserted one. -/
theorem insertStable_mem {α : Type} (le : α → α → Bool) (a x : α) :
    ∀ l : List α, x ∈ insertStable le a l → x = a ∨ x ∈ l := by
  intro l
  induction l with
  | nil => intro h; simp [insertStable] at h; exact Or.inl h
  | cons b l ih =>
    intro h
    unfold insertStable at h
    by_cases hc : le a b = true
    · rw [if_pos hc] at h
      rcases List.mem_cons.mp h with h1 | h2
      · exact Or.inl h1
      · exact Or.inr h2
    · rw [if_neg hc] at h
      rcases List.mem_cons.mp h with h1 | h2
      · exact Or.inr (h1 ▸ List.mem_cons_self b l)
      · rcases ih h2 with h3 | h4
        · exact Or.inl h3
        · exact Or.inr (List.mem_cons_of_mem b h4)

/-- The stable sort adds no elements. -/
theorem stableSort_mem {α : Type} (le : α → α → Bool) :
    ∀ (l : List α) (x : α), x ∈ stableSort le l → x ∈ l := by
  intro l
  induction l with
  | nil => intro x h; simp [stableSort] at h
  | cons a l ih =>
    intro x h
    unfold stableSort at h
    rcases insertStable_mem le a x _ h with h1 | h2
    · exact h1 ▸ List.mem_cons_self a l
    · exact List.mem_cons_of_mem a (ih x h2)


/-- The assembler's final sort leaves the member list monotone in the
`optional` flag: a required member never follows an optional one. -/
theorem stableSort_pairwise_optional (l : List Member) :
    List.Pairwise (fun a b => a.optional = true → b.optional = true) (stableSort memberLe l) := by
  rw [stableSort_boolKey memberLe (fun m => m.optional) (fun a b => rfl) l]
  refine List.pairwise_append.mpr ⟨?_, ?_, ?_⟩
  · refine List.pairwise_of_forall_mem_list ?_
    intro a ha b hb hopt
    have hfa := (List.mem_filter.mp ha).2
    simp only [Bool.not_eq_true'] at hfa
    rw [hopt] at hfa
    exact Bool.noConfusion hfa
  · refine List.pairwise_of_forall_mem_list ?_
    intro a ha b hb _
    exact (List.mem_filter.mp hb).2
  · intro a ha b hb _
    exact (List.mem_filter.mp hb).2

/-- Destructuring of a successful `parse_class`: its member list is
the member-loop output folded, rewritten and stably sorted. -/
theorem parse_class_members_eq (lines : List String) (i : Nat) (parent : Option ClassSchema)
    (c : ClassSchema) (j : Nat) (h : parse_class lines i parent = some (c, j)) :
    ∃ mark raw folded rewritten,
      memberLoop lines (lines.length + 1) (i + mark + 1) [] = some (raw, j)
      ∧ foldStep (2 * (raw.map (fun m => m.name)).length + 1) raw (raw.map (fun m => m.name)) 0
          = some folded
      ∧ optMapM rewriteShape folded = some rewritten
      ∧ c.members = stableSort memberLe rewritten := by
  unfold parse_class at h
  cases ht : pyIdx lines ((i : Int) - 1) with
  | none => simp only [ht] at h; exact Option.noConfusion h
  | some titleLine =>
  simp only [ht] at h
  cases href : refAnchor lines i with
  | none => simp only [href] at h; exact Option.noConfusion h
  | some reference =>
  simp only [href] at h
  cases hmark : markerScan (lines.drop i) with
  | none => simp only [hmark] at h; exact Option.noConfusion h
  | some mark =>
  simp only [hmark] at h
  cases hloop : memberLoop lines (lines.length + 1) (i + mark + 1) [] with
  | none => simp only [hloop] at h; exact Option.noConfusion h
  | some rr =>
  cases rr with
  | mk raw iEnd =>
  simp only [hloop] at h
  cases hasm : assembleMembers raw with
  | none => simp only [hasm] at h; exact Option.noConfusion h
  | some members =>
  simp only [hasm, Option.some.injEq, Prod.mk.injEq] at h
  obtain ⟨hc, hj⟩ := h
  subst hj
  unfold assembleMembers at hasm
  cases hfold : foldStep (2 * (raw.map (fun m => m.name)).length + 1) raw
      (raw.map (fun m => m.name)) 0 with
  | none => simp only [hfold] at hasm; exact Option.noConfusion hasm
  | some folded =>
  simp only [hfold] at hasm
  cases hmap : optMapM rewriteShape folded with
  | none => simp only [hmap] at hasm; exact Option.noConfusion hasm
  | some rewritten =>
  simp only [hmap, Option.some.injEq] at hasm
  refine ⟨mark, raw, folded, rewritten, hloop, hfold, hmap, ?_⟩
  rw [← hc]
  exact hasm.symm

/-- C3 amended: every class assembled by `parse_class` has no dot in
any member name; every keyword-capture member (kind `none`, produced
only by the angle-bracket rewrite) is named `**kwargs` and is never
optional; and the member list is sorted required-before-optional, so
keyword-capture members precede every optional member — they sit among
the required members rather than last, and nothing bounds their
number by one. -/
theorem parse_class_member_invariants (lines : List String) (i : Nat)
    (parent : Option ClassSchema) (c : ClassSchema) (j : Nat)
    (h : parse_class lines i parent = some (c, j)) :
    (∀ m ∈ c.members, '.' ∉ m.name.data)
    ∧ (∀ m ∈ c.members, m.type = none → m.name = "**kwargs" ∧ m.optional = false)
    ∧ List.Pairwise (fun a b => a.optional = true → b.optional = true) c.members := by
  obtain ⟨mark, raw, folded, rewritten, hloop, hfold, hmap, hmem⟩ :=
    parse_class_members_eq lines i parent c j h
  have hraw_type : ∀ m ∈ raw, m.type ≠ none := by
    have hP := memberLoop_prop (fun m => m.type ≠ none)
      (fun li i2 m2 j2 hp => by
        obtain ⟨t, ht⟩ := parse_member_type_some li i2 m2 j2 hp
        simp [ht])
      lines (lines.length + 1) (i + mark + 1) [] (raw, j) hloop (by simp)
    exact hP
  have hfold_nodot : ∀ m ∈ folded, '.' ∉ m.name.data := by
    refine foldStep_nodot _ raw (raw.map (fun m => m.name)) 0 folded hfold ?_
    intro m hm _
    simpa using List.mem_map_of_mem (fun m => m.name) hm
  have hfold_type : ∀ m ∈ folded, m.type ≠ none :=
    foldStep_type_ne_none _ raw (raw.map (fun m => m.name)) 0 folded hfold hraw_type
  have hrw_nodot : ∀ m ∈ rewritten, '.' ∉ m.name.data := by
    intro m hm
    obtain ⟨x, hx, hfx⟩ := optMapM_mem rewriteShape folded rewritten hmap m hm
    exact rewriteShape_nodot x m hfx (hfold_nodot x hx)
  have hrw_kw : ∀ m ∈ rewritten, m.type = none → m.name = "**kwargs" ∧ m.optional = false := by
    intro m hm
    obtain ⟨x, hx, hfx⟩ := optMapM_mem rewriteShape folded rewritten hmap m hm
    exact rewriteShape_kwargs x m hfx (hfold_type x hx)
  rw [hmem]
  refine ⟨?_, ?_, stableSort_pairwise_optional rewritten⟩
  · intro m hm
    exact hrw_nodot m (stableSort_mem memberLe rewritten m hm)
  · intro m hm
    exact hrw_kw m (stableSort_mem memberLe rewritten m hm)

/-- C3 witness: the demonstration section parses to a class satisfying
the assembled-class invariants. -/
theorem parse_class_member_invariants_witness :
    (∀ m ∈ demoJobClass.members, '.' ∉ m.name.data)
    ∧ (∀ m ∈ demoJobClass.members, m.type = none → m.name = "**kwargs" ∧ m.optional = false)
    ∧ List.Pairwise (fun a b => a.optional = true → b.optional = true) demoJobClass.members :=
  parse_class_member_invariants demoClassLines 1 none demoJobClass 8 rfl
